import Mathlib

/-!
Verification of the beluga-builder MDX/MDD decoder (src/src/mdict.rs).

Shallow embedding conventions:
- bytes and machine integers are `Nat`; wrapping is written with explicit
  `% 256` where the Rust code relies on `u8` overflow;
- fallible Rust code (`Result<_, String>`) becomes `Except String _`;
- a Rust panic is modelled as an `Except.error` whose message starts with
  "panicked:";
- external library calls (zlib, LZO, RIPEMD-128, UTF-8/UTF-16 string
  conversion) are parameters of the embedded functions, since their code is
  not part of this repository;
- the `crate::utils` module is not present under src/, so its byte
  converters are modelled from the spec (all multi-byte integers in
  MDX/MDD are big-endian).
-/

namespace Beluga

/-- Modelled from the spec: `utils::u8v_to_u64` is missing from src/; the
spec states all multi-byte integers in MDX/MDD are big-endian. -/
def u8v_to_u64 (l : List Nat) : Nat :=
  l.foldl (fun a b => a * 256 + b) 0

/-- Modelled from the spec: `utils::u8v_to_u32` is missing from src/;
big-endian decode. -/
def u8v_to_u32 (l : List Nat) : Nat :=
  l.foldl (fun a b => a * 256 + b) 0

/-- Modelled from the spec: `utils::u8v_to_u16` is missing from src/;
big-endian decode. -/
def u8v_to_u16 (l : List Nat) : Nat :=
  l.foldl (fun a b => a * 256 + b) 0

/-- Modelled from the spec: `utils::u8v_to_u16v` with `Endianness::Little`
is missing from src/; pairs consecutive bytes into little-endian 16-bit
units. -/
def u8v_to_u16v : List Nat → List Nat
  | b0 :: b1 :: rest => (b0 + b1 * 256) :: u8v_to_u16v rest
  | _ => []

/-- The error message produced by `Scanner::read` in src/src/mdict.rs
(lines 546-553). -/
def readErrMsg (pos n len : Nat) : String :=
  "Invalid read size. pos: " ++ toString pos ++ ", size: " ++ toString n ++
    ", len: " ++ toString len

/-- In-memory cursor over a byte buffer; `Scanner` from src/src/mdict.rs
(lines 510-516). -/
structure Scanner where
  buf : List Nat
  pos : Nat
  v2 : Bool
  utf16 : Bool
  text_tail : Nat
deriving DecidableEq

/-- `Scanner::new` (src/src/mdict.rs lines 519-535). -/
def Scanner.new (buf : List Nat) (v2 utf16 : Bool) : Scanner :=
  { buf := buf, pos := 0, v2 := v2, utf16 := utf16,
    text_tail := if v2 then (if utf16 then 2 else 1) else 0 }

/-- `Scanner::seek` (src/src/mdict.rs lines 537-539). -/
def Scanner.seek (s : Scanner) (pos : Nat) : Scanner :=
  { s with pos := pos }

/-- `Scanner::forward` (src/src/mdict.rs lines 541-543). -/
def Scanner.forward (s : Scanner) (n : Nat) : Scanner :=
  { s with pos := s.pos + n }

/-- `Scanner::read` (src/src/mdict.rs lines 545-560): bounds-checked read
of `n` bytes starting at `pos`; the source builds the result by copying
`buf[pos + i]` for `i < n`, which is `(buf.drop pos).take n`. -/
def Scanner.read (s : Scanner) (n : Nat) : Except String (List Nat × Scanner) :=
  if s.pos + n > s.buf.length then
    .error (readErrMsg s.pos n s.buf.length)
  else
    .ok ((s.buf.drop s.pos).take n, { s with pos := s.pos + n })

/-- `Scanner::read_number` (src/src/mdict.rs lines 562-571): 8-byte
big-endian in v2, 4-byte big-endian in v1. -/
def Scanner.read_number (s : Scanner) : Except String (Nat × Scanner) :=
  if s.v2 then
    match s.read 8 with
    | .error e => .error e
    | .ok (buf, s1) => .ok (u8v_to_u64 buf, s1)
  else
    match s.read 4 with
    | .error e => .error e
    | .ok (buf, s1) => .ok (u8v_to_u32 buf, s1)

/-- C10: `Scanner::read` is total: it returns the source error message
exactly when `pos + n` exceeds the buffer length, and otherwise returns
exactly the `n` bytes starting at `pos` and advances `pos` by `n`. -/
theorem scanner_read_total (s : Scanner) (n : Nat) :
    (s.buf.length < s.pos + n ∧
      s.read n = .error (readErrMsg s.pos n s.buf.length)) ∨
    (s.pos + n ≤ s.buf.length ∧
      s.read n = .ok ((s.buf.drop s.pos).take n, { s with pos := s.pos + n }) ∧
      ((s.buf.drop s.pos).take n).length = n) := by
  by_cases h : s.pos + n > s.buf.length
  · left
    refine ⟨h, ?_⟩
    simp [Scanner.read, h]
  · right
    refine ⟨by omega, ?_, ?_⟩
    · simp [Scanner.read, h]
    · simp only [List.length_take, List.length_drop]
      omega

/-- The file handle of `Mdict` (src/src/mdict.rs line 64), modelled as the
full file contents plus the current cursor position. -/
structure Mdict where
  data : List Nat
  cursor : Nat
deriving DecidableEq

/-- `Mdict::read` (src/src/mdict.rs lines 141-147): allocates `vec![0; n]`,
issues a single `File::read` into it, and returns the buffer on `Ok(_)`
without checking how many bytes were read. A regular file yields
`min(n, len - cursor)` bytes; the remainder of the buffer keeps its zero
fill. -/
def Mdict.read (f : Mdict) (n : Nat) : Except String (List Nat × Mdict) :=
  let got := (f.data.drop f.cursor).take n
  .ok (got ++ List.replicate (n - got.length) 0,
       { f with cursor := f.cursor + got.length })

/-- C5 (code bug witness): reading 4 bytes from a 1-byte file succeeds and
returns a zero-padded buffer `[7, 0, 0, 0]` instead of failing with a
truncated-input error. -/
theorem mdict_read_zero_pads_short_read :
    Mdict.read { data := [7], cursor := 0 } 4 =
      .ok ([7, 0, 0, 0], { data := [7], cursor := 1 }) := by
  rfl

/-- The `Encoding` lookup of `Mdict::parse_header` (src/src/mdict.rs lines
289-292): the XML attribute bag is modelled as an association list. -/
def headerEncoding (attrs : List (String × String)) : String :=
  match attrs.lookup "Encoding" with
  | some s => s
  | none => ""

/-- The utf16 flag computed by `Mdict::parse_header` (src/src/mdict.rs
line 293): `self.utf16 = encoding == "UTF16" || encoding == "";`. -/
def headerUtf16 (attrs : List (String × String)) : Bool :=
  headerEncoding attrs == "UTF16" || headerEncoding attrs == ""

/-- C2 counterexample: an `Encoding` attribute equal to the string
"UTF-16" (as the claim states) does NOT select utf16le in the code, which
compares against "UTF16" without the hyphen. -/
theorem headerUtf16_rejects_hyphenated :
    headerUtf16 [("Encoding", "UTF-16")] = false := by
  rfl

/-- C2 amended: the text encoding is utf16le exactly when the `Encoding`
attribute is the string "UTF16" (no hyphen) or is empty/absent; every
other value, including "UTF-16" and "UTF-8", selects utf8. -/
theorem headerUtf16_iff (attrs : List (String × String)) :
    headerUtf16 attrs = true ↔
      (attrs.lookup "Encoding" = some "UTF16" ∨
       attrs.lookup "Encoding" = some "" ∨
       attrs.lookup "Encoding" = none) := by
  unfold headerUtf16 headerEncoding
  cases h : attrs.lookup "Encoding" with
  | none => simp
  | some s => simp [h]

/-- Model of Rust `str::to_lowercase` (ASCII range, which covers the
attribute values compared here): lowercases every character. -/
def to_lowercase (s : String) : String :=
  ⟨s.data.map Char.toLower⟩

/-- Model of Rust `str::parse::<u8>`: decimal digits only, value below
256. -/
def parseU8 (s : String) : Option Nat :=
  if s.data ≠ [] ∧ s.data.all Char.isDigit then
    let n := s.data.foldl (fun n c => n * 10 + (c.toNat - 48)) 0
    if n < 256 then some n else none
  else none

/-- The `Encrypted` handling of `Mdict::parse_header` (src/src/mdict.rs
lines 273-288): absent attribute is an error; a value whose lowercase form
is "no" gives mode 0; otherwise the value is parsed as `u8` and stored
without further validation. -/
def parseEncrypted (attrs : List (String × String)) : Except String Nat :=
  match attrs.lookup "Encrypted" with
  | none => .error "No field: Encrypted"
  | some s =>
    if to_lowercase s == "no" then .ok 0
    else
      match parseU8 s with
      | some v => .ok v
      | none => .error "invalid digit found in string"

/-- C3 counterexample: `Encrypted = "1"` is accepted as mode 1 with no
UnsupportedEncryption failure, and an absent `Encrypted` attribute is an
error rather than mode 0. -/
theorem parseEncrypted_accepts_mode_one :
    parseEncrypted [("Encrypted", "1")] = .ok 1 ∧
      parseEncrypted [] = .error "No field: Encrypted" := by
  exact ⟨rfl, rfl⟩

/-- C3 amended: header parsing maps an `Encrypted` attribute whose
lowercase form is "no" to mode 0; an absent attribute fails with the error
"No field: Encrypted"; any other value is parsed as an 8-bit integer and
the parsed value — including 1 — is stored with no membership check in
{0, 2}; only unparseable values fail. -/
theorem parseEncrypted_spec (attrs : List (String × String)) :
    (attrs.lookup "Encrypted" = none →
      parseEncrypted attrs = .error "No field: Encrypted") ∧
    (∀ s, attrs.lookup "Encrypted" = some s → to_lowercase s = "no" →
      parseEncrypted attrs = .ok 0) ∧
    (∀ s n, attrs.lookup "Encrypted" = some s → to_lowercase s ≠ "no" →
      parseU8 s = some n → parseEncrypted attrs = .ok n) ∧
    (∀ s, attrs.lookup "Encrypted" = some s → to_lowercase s ≠ "no" →
      parseU8 s = none →
      parseEncrypted attrs = .error "invalid digit found in string") := by
  refine ⟨?_, ?_, ?_, ?_⟩
  · intro h
    simp [parseEncrypted, h]
  · intro s h hlow
    simp [parseEncrypted, h, hlow]
  · intro s n h hlow hp
    simp [parseEncrypted, h, hlow, hp]
  · intro s h hlow hp
    simp [parseEncrypted, h, hlow, hp]

/-- C3 amended witness: `Encrypted = "2"` is parsed and stored as mode
2. -/
theorem parseEncrypted_spec_witness :
    parseEncrypted [("Encrypted", "2")] = .ok 2 := by
  exact (parseEncrypted_spec [("Encrypted", "2")]).2.2.1 "2" 2 rfl
    (by decide) rfl

/-- A parsed keyword (`Keyword` in src/src/mdict.rs lines 40-44). -/
structure Keyword where
  offset : Nat
  key : String
  size : Nat
deriving DecidableEq

/-- One iteration of the inner loop of `Mdict::parse_keyword_block`
(src/src/mdict.rs lines 358-370), over the stream of
`(record_offset, key)` entries decoded from the keyword sub-block: the
loop counter is the first component of the accumulator; when `i > 1` the
size of entry `i - 1` is fixed up to `offset - block[i - 1].offset`, and
the new entry is pushed with size 0. -/
def parse_keyword_block_step (st : Nat × List Keyword) (e : Nat × String) :
    Nat × List Keyword :=
  let i := st.1
  let block :=
    if 1 < i then
      match st.2.get? (i - 1) with
      | some kw => st.2.set (i - 1) { kw with size := e.1 - kw.offset }
      | none => st.2
    else st.2
  (i + 1, block ++ [{ offset := e.1, key := e.2, size := 0 }])

/-- The inner loop of `Mdict::parse_keyword_block` (src/src/mdict.rs lines
358-370), iterated over the full entry stream of one keyword block. -/
def parse_keyword_block_entries (es : List (Nat × String)) : List Keyword :=
  (es.foldl parse_keyword_block_step (0, [])).2

/-- C1 (code bug witness): in a block with two entries at record offsets 0
and 5, the first (non-last) keyword keeps size 0 instead of the claimed
5 = next.record_offset - this.record_offset, because the loop guard is
`i > 1` rather than `i > 0`; with three entries the middle keyword does
get its size computed, so only the fixup of entry 0 is skipped. -/
theorem parse_keyword_block_first_size_stays_zero :
    parse_keyword_block_entries [(0, "a"), (5, "b")] =
      [{ offset := 0, key := "a", size := 0 },
       { offset := 5, key := "b", size := 0 }] ∧
    parse_keyword_block_entries [(0, "a"), (5, "b"), (9, "c")] =
      [{ offset := 0, key := "a", size := 0 },
       { offset := 5, key := "b", size := 4 },
       { offset := 9, key := "c", size := 0 }] := by
  exact ⟨rfl, rfl⟩

/-- The loop of `decrypt` (src/src/mdict.rs lines 646-653): nibble-swap the
current byte, XOR with `prev`, the low byte of the index and the digest
byte `k[i mod k.len]`, then update `prev` to the PRE-transform byte.
`i` is the running index and `prev` the chained ciphertext byte. -/
def decryptGo (k : List Nat) : Nat → Nat → List Nat → List Nat
  | _, _, [] => []
  | i, prev, b :: rest =>
    (((b >>> 4) ||| ((b <<< 4) % 256)) ^^^ prev ^^^ (i &&& 0xFF) ^^^
        k.getD (i % k.length) 0) ::
      decryptGo k (i + 1) b rest

/-- The byte-serial stream transform of `decrypt` for a given 16-byte
digest `k`, with `prev` initialized to `0x36` (src/src/mdict.rs lines
645-653). -/
def decryptWith (k : List Nat) (buf : List Nat) : List Nat :=
  decryptGo k 0 0x36 buf

/-- `decrypt` (src/src/mdict.rs lines 641-654): derives the digest from
the 8 key bytes via RIPEMD-128 (an external library call, passed as the
parameter `ripemd`) and applies the stream transform. -/
def decrypt (ripemd : List Nat → List Nat) (key : List Nat)
    (buf : List Nat) : List Nat :=
  decryptWith (ripemd key) buf

/-- Closed form of `decryptGo` at index `j`: the output byte combines the
nibble-swapped input with the previous CIPHERTEXT byte (or the seed for
`j = 0`), the low byte of the absolute index, and the digest byte. -/
theorem decryptGo_getElem (k : List Nat) (l : List Nat) (i0 prev : Nat)
    (j : Nat) (h : j < l.length) :
    (decryptGo k i0 prev l)[j]? =
      some ((((l.getD j 0) >>> 4) ||| (((l.getD j 0) <<< 4) % 256)) ^^^
        (if j = 0 then prev else l.getD (j - 1) 0) ^^^
        ((i0 + j) &&& 0xFF) ^^^ k.getD ((i0 + j) % k.length) 0) := by
  induction l generalizing i0 prev j with
  | nil => simp at h
  | cons b rest ih =>
    cases j with
    | zero => simp [decryptGo]
    | succ j =>
      have hj : j < rest.length := by simpa using h
      have := ih (i0 + 1) b j hj
      have harith : i0 + 1 + j = i0 + (j + 1) := by omega
      rw [harith] at this
      simp only [decryptGo, List.getElem?_cons_succ, List.getD_cons_succ]
      rw [this]
      cases j with
      | zero => simp
      | succ j2 => simp

/-- C8: for every buffer, 8-byte key and index `i` in range, the decrypt
transform outputs
`nibble-swap(buf[i]) XOR prev XOR (i AND 0xFF) XOR k[i mod 16]` where
`k = RIPEMD-128(key)` and `prev` is `0x36` for `i = 0` and otherwise the
pre-transform (ciphertext) byte `buf[i-1]`. -/
theorem decrypt_spec (ripemd : List Nat → List Nat) (key buf : List Nat)
    (i : Nat) (h : i < buf.length) :
    (decrypt ripemd key buf)[i]? =
      some ((((buf.getD i 0) >>> 4) ||| (((buf.getD i 0) <<< 4) % 256)) ^^^
        (if i = 0 then 0x36 else buf.getD (i - 1) 0) ^^^
        (i &&& 0xFF) ^^^
        (ripemd key).getD (i % (ripemd key).length) 0) := by
  have := decryptGo_getElem (ripemd key) buf 0 0x36 i h
  simpa [decrypt, decryptWith] using this

/-- A stand-in RIPEMD-128 digest function used for concrete evaluation
(the real digest is an external library call). -/
def ripemdConst : List Nat → List Nat :=
  fun _ => List.range 16

/-- C8 witness: the closed form evaluated at a concrete two-byte buffer at
index 1, where `prev` is the first ciphertext byte `0xAB`. -/
theorem decrypt_spec_witness :
    (decrypt ripemdConst [1, 2, 3, 4, 5, 6, 7, 8] [0xAB, 0x01])[1]? =
      some ((((([0xAB, 0x01] : List Nat).getD 1 0) >>> 4) |||
          (((([0xAB, 0x01] : List Nat).getD 1 0) <<< 4) % 256)) ^^^
        (if 1 = 0 then 0x36 else ([0xAB, 0x01] : List Nat).getD 0 0) ^^^
        ((1 : Nat) &&& 0xFF) ^^^
        (ripemdConst [1, 2, 3, 4, 5, 6, 7, 8]).getD
          (1 % (ripemdConst [1, 2, 3, 4, 5, 6, 7, 8]).length) 0) := by
  exact decrypt_spec ripemdConst [1, 2, 3, 4, 5, 6, 7, 8] [0xAB, 0x01] 1
    (by decide)

/-- The body preparation of `read_block` for a compressed block
(src/src/mdict.rs lines 665-672): strip the 8-byte header; when
`encrypt & 0x02 != 0`, build the pass key from header bytes 4..8 followed
by `[0x95, 0x36, 0x00, 0x00]` and decrypt the body. -/
def blockBody (ripemd : List Nat → List Nat) (buf : List Nat)
    (encrypt : Nat) : List Nat :=
  let tmp := buf.take 8
  let body := buf.drop 8
  if encrypt &&& 0x02 ≠ 0 then
    decrypt ripemd ((tmp.drop 4).take 4 ++ [0x95, 0x36, 0x00, 0x00]) body
  else body

/-- `read_block` (src/src/mdict.rs lines 656-691). Byte 0 selects the
codec: 0 copies `buf[8..]` verbatim; 2 runs the zlib decoder; every other
nonzero value runs the LZO decoder with the decompressed-length hint, and
an LZO failure panics. The zlib and LZO decoders are external library
calls, passed as parameters. Rust panics (empty buffer indexing, a buffer
shorter than the 8-byte header, LZO failure) are modelled as errors whose
message starts with "panicked:". -/
def read_block (zlib : List Nat → Except String (List Nat))
    (lzo : List Nat → Nat → Except String (List Nat))
    (ripemd : List Nat → List Nat)
    (buf : List Nat) (decompress_length : Nat) (encrypt : Nat) :
    Except String (List Nat) :=
  match buf with
  | [] => .error "panicked: index out of bounds"
  | compress :: _ =>
    if buf.length < 8 then .error "panicked: slice index out of range"
    else if compress = 0 then .ok (buf.drop 8)
    else
      let body := blockBody ripemd buf encrypt
      if compress = 2 then
        match zlib body with
        | .ok r => .ok r
        | .error e => .error e
      else
        match lzo body decompress_length with
        | .ok r => .ok r
        | .error _ => .error "panicked: LZO decompress error"

/-- A zlib decoder stand-in that always fails (external library call). -/
def zlibFail : List Nat → Except String (List Nat) :=
  fun _ => .error "zlib error"

/-- An LZO decoder stand-in that always succeeds with `[42]` (external
library call). -/
def lzoConst : List Nat → Nat → Except String (List Nat) :=
  fun _ _ => .ok [42]

/-- C4 counterexample: a block whose header byte 0 is 3 (outside
{0, 1, 2}) is NOT rejected with an UnknownCompression error; the code
routes it to the LZO decoder, and when LZO succeeds `read_block` returns
its output. -/
theorem read_block_kind3_not_rejected :
    read_block zlibFail lzoConst ripemdConst
      [3, 0, 0, 0, 0, 0, 0, 0, 9, 9] 5 0 = .ok [42] := by
  rfl

/-- C4 amended: for a block of at least 8 bytes, header byte 0 equal to 0
returns the bytes after the 8-byte header verbatim, and every nonzero
header byte other than 2 (including every value outside {0, 1, 2}) is fed
to the LZO decoder rather than failing with an UnknownCompression error;
when LZO fails the code panics with "LZO decompress error". -/
theorem read_block_spec (zlib : List Nat → Except String (List Nat))
    (lzo : List Nat → Nat → Except String (List Nat))
    (ripemd : List Nat → List Nat)
    (buf : List Nat) (dlen enc : Nat) (h8 : 8 ≤ buf.length) :
    (buf.getD 0 0 = 0 →
      read_block zlib lzo ripemd buf dlen enc = .ok (buf.drop 8)) ∧
    (buf.getD 0 0 ≠ 0 → buf.getD 0 0 ≠ 2 →
      ((∃ r, lzo (blockBody ripemd buf enc) dlen = .ok r ∧
          read_block zlib lzo ripemd buf dlen enc = .ok r) ∨
       ((∃ e, lzo (blockBody ripemd buf enc) dlen = .error e) ∧
          read_block zlib lzo ripemd buf dlen enc =
            .error "panicked: LZO decompress error"))) := by
  match buf, h8 with
  | b :: rest, h8 =>
    have hlen : ¬ (b :: rest).length < 8 := by
      simpa using h8
    have hr : 7 ≤ rest.length := by
      simp only [List.length_cons] at h8
      omega
    constructor
    · intro h0
      simp only [List.getD_cons_zero] at h0
      simp [read_block, hlen, h0, hr]
    · intro h0 h2
      simp only [List.getD_cons_zero] at h0 h2
      cases hl : lzo (blockBody ripemd (b :: rest) enc) dlen with
      | ok r =>
        left
        exact ⟨r, rfl, by simp [read_block, hlen, h0, h2, hl, hr]⟩
      | error e =>
        right
        exact ⟨⟨e, rfl⟩, by simp [read_block, hlen, h0, h2, hl, hr]⟩

/-- C4 amended witness: a 9-byte block with header byte 0 returns the
single body byte verbatim. -/
theorem read_block_spec_witness :
    read_block zlibFail lzoConst ripemdConst
      [0, 1, 2, 3, 4, 5, 6, 7, 99] 5 0 = .ok [99] := by
  have := (read_block_spec zlibFail lzoConst ripemdConst
    [0, 1, 2, 3, 4, 5, 6, 7, 99] 5 0 (by decide)).1 (by decide)
  simpa using this

/-- Big-endian byte encoding of a number into `k` bytes (used to build
concrete record-index buffers for the parser). -/
def toBytesBE : Nat → Nat → List Nat
  | 0, _ => []
  | k + 1, n => toBytesBE k (n / 256) ++ [n % 256]

/-- 8-byte big-endian encoding of a `u64`. -/
def encU64 (n : Nat) : List Nat :=
  toBytesBE 8 n

/-- The on-disk form of the decompressed record index: `num_blocks` pairs
of 8-byte big-endian `(comp_delta, decomp_delta)` values. -/
def encodePairs : List (Nat × Nat) → List Nat
  | [] => []
  | (a, b) :: rest => encU64 a ++ encU64 b ++ encodePairs rest

theorem toBytesBE_length (k n : Nat) : (toBytesBE k n).length = k := by
  induction k generalizing n with
  | zero => rfl
  | succ k ih => simp [toBytesBE, ih]

theorem foldl_toBytesBE (k n acc : Nat) (h : n < 256 ^ k) :
    (toBytesBE k n).foldl (fun a b => a * 256 + b) acc =
      acc * 256 ^ k + n := by
  induction k generalizing n acc with
  | zero =>
    simp only [toBytesBE, List.foldl_nil, pow_zero, mul_one]
    omega
  | succ k ih =>
    have hdiv : n / 256 < 256 ^ k := by
      rw [Nat.div_lt_iff_lt_mul (by norm_num)]
      calc n < 256 ^ (k + 1) := h
        _ = 256 ^ k * 256 := by ring
    simp only [toBytesBE, List.foldl_append, List.foldl_cons, List.foldl_nil]
    rw [ih (n / 256) acc hdiv]
    have hmod : 256 * (n / 256) + n % 256 = n := by omega
    calc (acc * 256 ^ k + n / 256) * 256 + n % 256
        = acc * (256 ^ k * 256) + (256 * (n / 256) + n % 256) := by ring
      _ = acc * 256 ^ (k + 1) + n := by rw [hmod, pow_succ]

theorem u8v_to_u64_encU64 (n : Nat) (h : n < 2 ^ 64) :
    u8v_to_u64 (encU64 n) = n := by
  have h2 : n < 256 ^ 8 := by
    norm_num at h ⊢
    omega
  have := foldl_toBytesBE 8 n 0 h2
  simpa [u8v_to_u64, encU64] using this

/-- A read of a leading chunk succeeds and consumes exactly the chunk. -/
theorem scanner_read_chunk (full chunk rest : List Nat) (pos : Nat)
    (v2 u16 : Bool) (tl : Nat)
    (h : full.drop pos = chunk ++ rest) (hn : 0 < chunk.length) :
    Scanner.read ⟨full, pos, v2, u16, tl⟩ chunk.length =
      .ok (chunk, ⟨full, pos + chunk.length, v2, u16, tl⟩) := by
  have hlen : full.length - pos = chunk.length + rest.length := by
    rw [← List.length_drop, h, List.length_append]
  have hb : ¬ pos + chunk.length > full.length := by
    omega
  simp only [Scanner.read, hb, if_false]
  rw [h]
  congr 1
  rw [List.take_left]

/-- `Scanner::read_number` in v2 mode decodes the next 8 bytes as a
big-endian `u64`. -/
theorem read_number_chunk (full rest : List Nat) (pos : Nat) (u16 : Bool)
    (tl d : Nat) (hd : d < 2 ^ 64) (h : full.drop pos = encU64 d ++ rest) :
    Scanner.read_number ⟨full, pos, true, u16, tl⟩ =
      .ok (d, ⟨full, pos + 8, true, u16, tl⟩) := by
  have hlen : (encU64 d).length = 8 := by
    simp [encU64, toBytesBE_length]
  have hread := scanner_read_chunk full (encU64 d) rest pos true u16 tl h
    (by omega)
  rw [hlen] at hread
  simp [Scanner.read_number, hread, u8v_to_u64_encU64 d hd]

/-- The loop of `Mdict::parse_record_index` (src/src/mdict.rs lines
400-407): each iteration pushes the running pair `(p0, p1)` and then adds
the next `(comp_delta, decomp_delta)` read from the scanner; after
`num_blocks` iterations the final pair is pushed as the sentinel. -/
def parse_record_index_go (sc : Scanner) (p0 p1 : Nat) :
    Nat → Except String (List (Nat × Nat) × Scanner)
  | 0 => .ok ([(p0, p1)], sc)
  | n + 1 =>
    match sc.read_number with
    | .error e => .error e
    | .ok (d0, sc1) =>
      match sc1.read_number with
      | .error e => .error e
      | .ok (d1, sc2) =>
        match parse_record_index_go sc2 (p0 + d0) (p1 + d1) n with
        | .error e => .error e
        | .ok (rest, sc3) => .ok ((p0, p1) :: rest, sc3)

/-- `Mdict::parse_record_index` (src/src/mdict.rs lines 395-409): scans
the record-index buffer with a fresh `Scanner`, starting the cumulative
pair at `(blocks_pos, 0)`. -/
def parse_record_index (blocks_pos num_blocks : Nat) (buf : List Nat)
    (v2 utf16 : Bool) : Except String (List (Nat × Nat)) :=
  match parse_record_index_go (Scanner.new buf v2 utf16) blocks_pos 0
      num_blocks with
  | .error e => .error e
  | .ok (l, _) => .ok l

/-- The cumulative materialization computed by the record-index loop. -/
def cumFrom (p0 p1 : Nat) : List (Nat × Nat) → List (Nat × Nat)
  | [] => [(p0, p1)]
  | (d0, d1) :: rest => (p0, p1) :: cumFrom (p0 + d0) (p1 + d1) rest

theorem cumFrom_length (p0 p1 : Nat) (ds : List (Nat × Nat)) :
    (cumFrom p0 p1 ds).length = ds.length + 1 := by
  induction ds generalizing p0 p1 with
  | nil => rfl
  | cons d rest ih =>
    cases d with
    | mk d0 d1 => simp [cumFrom, ih]

theorem cumFrom_getElem (p0 p1 : Nat) (ds : List (Nat × Nat)) (i : Nat)
    (h : i ≤ ds.length) :
    (cumFrom p0 p1 ds)[i]? =
      some (p0 + ((ds.take i).map Prod.fst).sum,
            p1 + ((ds.take i).map Prod.snd).sum) := by
  induction ds generalizing p0 p1 i with
  | nil =>
    have hi0 : i = 0 := by
      simpa using h
    subst hi0
    simp [cumFrom]
  | cons d rest ih =>
    cases d with
    | mk d0 d1 =>
      cases i with
      | zero => simp [cumFrom]
      | succ i =>
        have hi : i ≤ rest.length := by simpa using h
        simp only [cumFrom, List.getElem?_cons_succ, List.take_succ_cons,
          List.map_cons, List.sum_cons]
        rw [ih (p0 + d0) (p1 + d1) i hi]
        congr 2 <;> omega

theorem parse_record_index_go_ok (full rest : List Nat) (u16 : Bool)
    (tl : Nat) (ds : List (Nat × Nat)) :
    ∀ (pos p0 p1 : Nat),
      (∀ x ∈ ds, x.1 < 2 ^ 64 ∧ x.2 < 2 ^ 64) →
      full.drop pos = encodePairs ds ++ rest →
      ∃ sc, parse_record_index_go ⟨full, pos, true, u16, tl⟩ p0 p1
          ds.length = .ok (cumFrom p0 p1 ds, sc) := by
  induction ds with
  | nil =>
    intro pos p0 p1 _ _
    exact ⟨⟨full, pos, true, u16, tl⟩, rfl⟩
  | cons d dsTail ih =>
    intro pos p0 p1 hb hdrop
    cases d with
    | mk a b =>
      have hba : a < 2 ^ 64 := (hb (a, b) (by simp)).1
      have hbb : b < 2 ^ 64 := (hb (a, b) (by simp)).2
      have hlen8 : (encU64 a).length = 8 := by
        simp [encU64, toBytesBE_length]
      have hlen8b : (encU64 b).length = 8 := by
        simp [encU64, toBytesBE_length]
      have hdrop1 : full.drop pos =
          encU64 a ++ (encU64 b ++ (encodePairs dsTail ++ rest)) := by
        rw [hdrop]
        simp [encodePairs]
      have hr1 := read_number_chunk full (encU64 b ++ (encodePairs dsTail ++
        rest)) pos u16 tl a hba hdrop1
      have hdd1 : (full.drop pos).drop 8 = full.drop (pos + 8) := by
        rw [List.drop_drop]
      have hdrop2 : full.drop (pos + 8) =
          encU64 b ++ (encodePairs dsTail ++ rest) := by
        rw [← hdd1, hdrop1, ← hlen8, List.drop_left]
      have hr2 := read_number_chunk full (encodePairs dsTail ++ rest)
        (pos + 8) u16 tl b hbb hdrop2
      have hdd2 : (full.drop (pos + 8)).drop 8 = full.drop (pos + 8 + 8) := by
        rw [List.drop_drop]
      have hdrop3 : full.drop (pos + 8 + 8) = encodePairs dsTail ++ rest := by
        rw [← hdd2, hdrop2, ← hlen8b, List.drop_left]
      obtain ⟨sc, hrec⟩ := ih (pos + 8 + 8) (p0 + a) (p1 + b)
        (fun x hx => hb x (by simp [hx])) hdrop3
      refine ⟨sc, ?_⟩
      simp only [List.length_cons, parse_record_index_go, hr1, hr2, hrec]
      rfl

/-- C7: parsing a v2 record index holding `num_blocks` big-endian delta
pairs materializes exactly `num_blocks + 1` entries, where entry `i` is
`(blocks_pos + sum of the first i comp_deltas, sum of the first i
decomp_deltas)` and the final entry is the sentinel
`(blocks_pos + total_comp, total_decomp)`. -/
theorem parse_record_index_spec (blocks_pos : Nat) (ds : List (Nat × Nat))
    (u16 : Bool) (hb : ∀ x ∈ ds, x.1 < 2 ^ 64 ∧ x.2 < 2 ^ 64) :
    ∃ l, parse_record_index blocks_pos ds.length (encodePairs ds) true u16 =
        .ok l ∧
      l.length = ds.length + 1 ∧
      (∀ i, i ≤ ds.length →
        l[i]? = some (blocks_pos + ((ds.take i).map Prod.fst).sum,
                      ((ds.take i).map Prod.snd).sum)) ∧
      l[ds.length]? = some (blocks_pos + (ds.map Prod.fst).sum,
                            (ds.map Prod.snd).sum) := by
  obtain ⟨sc, hgo⟩ := parse_record_index_go_ok (encodePairs ds) [] u16
    (if u16 then 2 else 1) ds 0 blocks_pos 0 hb (by simp)
  refine ⟨cumFrom blocks_pos 0 ds, ?_, ?_, ?_, ?_⟩
  · unfold parse_record_index Scanner.new
    simp only [if_true]
    rw [hgo]
  · exact cumFrom_length blocks_pos 0 ds
  · intro i hi
    rw [cumFrom_getElem blocks_pos 0 ds i hi]
    simp
  · rw [cumFrom_getElem blocks_pos 0 ds ds.length (le_refl _)]
    simp

/-- C7 witness: two delta pairs `(3, 5)` and `(4, 6)` from base 100
materialize `[(100, 0), (103, 5), (107, 11)]` entrywise. -/
theorem parse_record_index_spec_witness :
    ∃ l, parse_record_index 100 ([(3, 5), (4, 6)] : List (Nat × Nat)).length
        (encodePairs [(3, 5), (4, 6)]) true false = .ok l ∧
      l.length = ([(3, 5), (4, 6)] : List (Nat × Nat)).length + 1 ∧
      (∀ i, i ≤ ([(3, 5), (4, 6)] : List (Nat × Nat)).length →
        l[i]? = some
          (100 + ((([(3, 5), (4, 6)] : List (Nat × Nat)).take i).map
              Prod.fst).sum,
            ((([(3, 5), (4, 6)] : List (Nat × Nat)).take i).map
              Prod.snd).sum)) ∧
      l[([(3, 5), (4, 6)] : List (Nat × Nat)).length]? = some
        (100 + (([(3, 5), (4, 6)] : List (Nat × Nat)).map Prod.fst).sum,
          (([(3, 5), (4, 6)] : List (Nat × Nat)).map Prod.snd).sum) := by
  exact parse_record_index_spec 100 [(3, 5), (4, 6)] false (by decide)

/-- External library functions used by the resolver, passed as parameters:
the zlib and LZO decompressors, the RIPEMD-128 digest, and the UTF-8 and
UTF-16 string conversions. -/
structure Params where
  zlib : List Nat → Except String (List Nat)
  lzo : List Nat → Nat → Except String (List Nat)
  ripemd : List Nat → List Nat
  fromUtf8 : List Nat → Except String String
  fromUtf16 : List Nat → Except String String

/-- The fields of `Mdict` used by `parse_definition` (src/src/mdict.rs
lines 63-76): the file handle, the flags, the record index and the
single-slot block cache. -/
structure MState where
  file : Mdict
  is_index : Bool
  v2 : Bool
  utf16 : Bool
  record_index : List (Nat × Nat)
  cache_offset : Nat
  cache : List Nat

/-- The early-return guards of `Mdict::parse_definition` (src/src/mdict.rs
lines 413-420): an empty record index is an error, and an offset above the
final decompressed cursor or below the first one is out of range. -/
def checkBounds (ri : List (Nat × Nat)) (off : Nat) : Option String :=
  if ri.length = 0 then some "Invalid record index length"
  else if off > (ri.getD (ri.length - 1) (0, 0)).2 ∨
      off < (ri.getD 0 (0, 0)).2 then
    some "Out of index of record"
  else none

/-- The binary-search loop of `Mdict::parse_definition` (src/src/mdict.rs
lines 427-444): `mi = (hi + li) / 2`; when `off ≥ record_index[mi].1` set
`li = mi`, else `hi = mi`; break with `li` once `hi - li ≤ 1`. -/
def bsearchGo (ri : List (Nat × Nat)) (off : Nat) (li hi : Nat) : Nat :=
  if (ri.getD ((hi + li) / 2) (0, 0)).2 ≤ off then
    if hi - (hi + li) / 2 ≤ 1 then (hi + li) / 2
    else bsearchGo ri off ((hi + li) / 2) hi
  else
    if (hi + li) / 2 - li ≤ 1 then li
    else bsearchGo ri off li ((hi + li) / 2)
termination_by hi - li
decreasing_by
  all_goals omega

/-- The binary search entry point: `hi` starts at `len - 1` and `li` at 0
(src/src/mdict.rs lines 421-422). -/
def bsearch (ri : List (Nat × Nat)) (off : Nat) : Nat :=
  bsearchGo ri off 0 (ri.length - 1)

/-- The NUL-scan of `Scanner::read_text_unsized` in utf16 mode
(src/src/mdict.rs lines 607-614): repeatedly read 2 bytes until the 16-bit
unit is zero, counting the bytes before the terminator. -/
def findNul16 (buf : List Nat) (pos : Nat) : Except String Nat :=
  if buf.length < pos + 2 then .error (readErrMsg pos 2 buf.length)
  else if u8v_to_u16 ((buf.drop pos).take 2) = 0 then .ok 0
  else
    match findNul16 buf (pos + 2) with
    | .error e => .error e
    | .ok l => .ok (l + 2)
termination_by buf.length - pos
decreasing_by
  omega

/-- The NUL-scan of `Scanner::read_text_unsized` in utf8 mode
(src/src/mdict.rs lines 615-622): read single bytes until 0x00. -/
def findNul8 (buf : List Nat) (pos : Nat) : Except String Nat :=
  if buf.length < pos + 1 then .error (readErrMsg pos 1 buf.length)
  else if buf.getD pos 0 = 0 then .ok 0
  else
    match findNul8 buf (pos + 1) with
    | .error e => .error e
    | .ok l => .ok (l + 1)
termination_by buf.length - pos
decreasing_by
  omega

/-- `Scanner::read_text_unsized` (src/src/mdict.rs lines 604-638): scan to
the NUL terminator, re-read that many bytes from the saved position,
advance past the terminator (2 bytes utf16, 1 byte utf8) and convert.
The string conversions are external calls passed as parameters. -/
def Scanner.read_text_unsized
    (fromUtf8 fromUtf16 : List Nat → Except String String) (s : Scanner) :
    Except String (String × Scanner) :=
  if s.utf16 then
    match findNul16 s.buf s.pos with
    | .error e => .error e
    | .ok len =>
      match s.read len with
      | .error e => .error e
      | .ok (bytes, s1) =>
        match fromUtf16 (u8v_to_u16v bytes) with
        | .ok str => .ok (str, s1.forward 2)
        | .error e => .error e
  else
    match findNul8 s.buf s.pos with
    | .error e => .error e
    | .ok len =>
      match s.read len with
      | .error e => .error e
      | .ok (bytes, s1) =>
        match fromUtf8 bytes with
        | .ok str => .ok (str, s1.forward 1)
        | .error e => .error e

/-- Rust `str::as_bytes` on the decoded definition text: the UTF-8 bytes
of the string (src/src/mdict.rs lines 462-463). -/
def strBytes (s : String) : List Nat :=
  s.toUTF8.toList.map (fun c => c.toNat)

/-- The payload extraction of `Mdict::parse_definition` (src/src/mdict.rs
lines 457-471), shared by the cache-hit and cache-miss paths: position a
scanner on the decoded block at `keyword.offset - decomp_offset`; for
entry files read a NUL-terminated text and return its UTF-8 bytes; for
resource files read `kw.size` bytes, or the remainder of the block when
`kw.size` is 0. -/
def extractPayload (P : Params) (is_index v2 utf16 : Bool) (buf : List Nat)
    (start : Nat) (kw : Keyword) : Except String (String × List Nat) :=
  let scanner := (Scanner.new buf v2 utf16).forward start
  if is_index then
    match Scanner.read_text_unsized P.fromUtf8 P.fromUtf16 scanner with
    | .error e => .error e
    | .ok (txt, _) => .ok (kw.key, strBytes txt)
  else
    let size := if kw.size = 0 then scanner.buf.length - scanner.pos
      else kw.size
    match scanner.read size with
    | .error e => .error e
    | .ok (data, _) => .ok (kw.key, data)

/-- The bytes produced by `Mdict::read` after a seek: the available bytes
from `off`, zero-padded to length `n` (see `Mdict.read`). -/
def readRaw (data : List Nat) (off n : Nat) : List Nat :=
  let got := (data.drop off).take n
  got ++ List.replicate (n - got.length) 0

theorem Mdict_read_eq (f : Mdict) (n : Nat) :
    Mdict.read f n = .ok (readRaw f.data f.cursor n,
      { f with cursor := f.cursor + ((f.data.drop f.cursor).take n).length }) := by
  rfl

/-- The decode of record block `li`: read `comp_size` bytes at the block
start and run `read_block` with the decompressed size hint and encryption
mode 0, as `Mdict::parse_definition` does on a cache miss
(src/src/mdict.rs lines 450-452). -/
def decodeAt (P : Params) (data : List Nat) (ri : List (Nat × Nat))
    (li : Nat) : Except String (List Nat) :=
  read_block P.zlib P.lzo P.ripemd
    (readRaw data (ri.getD li (0, 0)).1
      ((ri.getD (li + 1) (0, 0)).1 - (ri.getD li (0, 0)).1))
    ((ri.getD (li + 1) (0, 0)).2 - (ri.getD li (0, 0)).2) 0

/-- `Mdict::parse_definition` (src/src/mdict.rs lines 411-474): bounds
check, binary search, single-slot cache lookup (reuse the cached block
when `cache_offset` matches and the cache is nonempty, else seek, read,
decode and install), then payload extraction. Rust indexing of
`record_index[li + 1]` past the end is modelled as a panic error. The
seek at `comp_offset` followed by `Mdict::read(comp_size)` and
`read_block` (lines 450-452) is exactly `decodeAt` — `Mdict_read_eq`
shows the seek-read pair yields `readRaw data comp_offset comp_size` —
and since every read in the source is preceded by a seek, the file cursor
is never observable and is left untracked in the returned state. -/
def parse_definition (P : Params) (st : MState) (kw : Keyword) :
    Except String (String × List Nat) × MState :=
  match checkBounds st.record_index kw.offset with
  | some e => (.error e, st)
  | none =>
    let li := bsearch st.record_index kw.offset
    if st.record_index.length ≤ li + 1 then
      (.error "panicked: index out of bounds", st)
    else
      let comp_offset := (st.record_index.getD li (0, 0)).1
      let decomp_offset := (st.record_index.getD li (0, 0)).2
      if st.cache_offset = comp_offset ∧ 0 < st.cache.length then
        (extractPayload P st.is_index st.v2 st.utf16 st.cache
          (kw.offset - decomp_offset) kw, st)
      else
        match decodeAt P st.file.data st.record_index li with
        | .error e => (.error e, st)
        | .ok buf =>
          (extractPayload P st.is_index st.v2 st.utf16 buf
            (kw.offset - decomp_offset) kw,
           { st with cache_offset := comp_offset, cache := buf })

/-- The cache-disabled resolver: identical to `parse_definition` except
that the block is re-read and re-decoded on every call and the cache slot
is never consulted or written. -/
def parse_definition_nocache (P : Params) (st : MState) (kw : Keyword) :
    Except String (String × List Nat) × MState :=
  match checkBounds st.record_index kw.offset with
  | some e => (.error e, st)
  | none =>
    let li := bsearch st.record_index kw.offset
    if st.record_index.length ≤ li + 1 then
      (.error "panicked: index out of bounds", st)
    else
      let decomp_offset := (st.record_index.getD li (0, 0)).2
      match decodeAt P st.file.data st.record_index li with
      | .error e => (.error e, st)
      | .ok buf =>
        (extractPayload P st.is_index st.v2 st.utf16 buf
          (kw.offset - decomp_offset) kw, st)

/-- The driver loop over a sequence of keywords (src/src/mdict.rs lines
195-203), collecting each per-keyword result in order. -/
def runAll (P : Params) (st : MState) :
    List Keyword → List (Except String (String × List Nat))
  | [] => []
  | kw :: rest =>
    let r := parse_definition P st kw
    r.1 :: runAll P r.2 rest

/-- The driver loop with the cache-disabled resolver. -/
def runAllNoCache (P : Params) (st : MState) :
    List Keyword → List (Except String (String × List Nat))
  | [] => []
  | kw :: rest =>
    let r := parse_definition_nocache P st kw
    r.1 :: runAllNoCache P r.2 rest

/-- C6 counterexample: with record index `[(100, 0), (110, 7)]`, a keyword
offset of 7 — equal to the final sentinel decompressed cursor — passes the
bounds check of the resolver (the claim says it must be rejected as
OutOfRange). -/
theorem checkBounds_sentinel_accepted :
    checkBounds [(100, 0), (110, 7)] 7 = none := by
  rfl

/-- C6 amended: for a nonempty record index, the resolver raises the
out-of-range error exactly when the keyword offset is outside the CLOSED
interval from the first decompressed cursor to the final sentinel cursor;
an offset equal to the sentinel is accepted. -/
theorem checkBounds_out_of_range_iff (ri : List (Nat × Nat)) (off : Nat)
    (h : ri ≠ []) :
    checkBounds ri off = some "Out of index of record" ↔
      (off < (ri.getD 0 (0, 0)).2 ∨
       (ri.getD (ri.length - 1) (0, 0)).2 < off) := by
  have hlen : ¬ ri.length = 0 := by
    simpa [List.length_eq_zero] using h
  by_cases h2 : off > (ri.getD (ri.length - 1) (0, 0)).2 ∨
      off < (ri.getD 0 (0, 0)).2
  · simp only [checkBounds, hlen, if_false, h2, if_true]
    constructor
    · intro _
      exact h2.symm
    · intro _
      trivial
  · simp only [checkBounds, hlen, if_false, h2, if_true]
    constructor
    · intro hc
      exact Option.noConfusion hc
    · intro hc
      exact absurd hc.symm h2

/-- C6 amended witness: offset 3 lies below the first decompressed cursor
5, so the bounds check reports the out-of-range error. -/
theorem checkBounds_out_of_range_iff_witness :
    checkBounds [(5, 5), (9, 9)] 3 = some "Out of index of record" := by
  exact (checkBounds_out_of_range_iff [(5, 5), (9, 9)] 3 (by decide)).mpr
    (by decide)

/-- The per-keyword result as a pure function of the file contents, flags
and record index: bounds check, binary search, block decode, payload
extraction. Both resolvers compute this value. -/
def defOutput (P : Params) (data : List Nat) (is_index v2 utf16 : Bool)
    (ri : List (Nat × Nat)) (kw : Keyword) :
    Except String (String × List Nat) :=
  match checkBounds ri kw.offset with
  | some e => .error e
  | none =>
    let li := bsearch ri kw.offset
    if ri.length ≤ li + 1 then .error "panicked: index out of bounds"
    else
      match decodeAt P data ri li with
      | .error e => .error e
      | .ok buf =>
        extractPayload P is_index v2 utf16 buf
          (kw.offset - (ri.getD li (0, 0)).2) kw

/-- The cache-disabled resolver returns exactly the pure per-keyword
result. -/
theorem parse_definition_nocache_fst (P : Params) (st : MState)
    (kw : Keyword) :
    (parse_definition_nocache P st kw).1 =
      defOutput P st.file.data st.is_index st.v2 st.utf16 st.record_index
        kw := by
  unfold parse_definition_nocache defOutput
  cases hcb : checkBounds st.record_index kw.offset with
  | some e => simp
  | none =>
    by_cases hg : st.record_index.length ≤
        bsearch st.record_index kw.offset + 1
    · simp [hg]
    · simp only [hg, if_false]
      cases hde : decodeAt P st.file.data st.record_index
          (bsearch st.record_index kw.offset) with
      | error e => simp [hde]
      | ok buf => simp [hde]

/-- Coherence of the single-slot cache: when the cache is nonempty, it
holds the decode of the record block whose comp cursor equals
`cache_offset`. -/
def CacheOK (P : Params) (st : MState) : Prop :=
  0 < st.cache.length →
    ∃ li, li + 1 < st.record_index.length ∧
      st.cache_offset = (st.record_index.getD li (0, 0)).1 ∧
      decodeAt P st.file.data st.record_index li = .ok st.cache

/-- A strictly increasing comp column makes positions recoverable from
comp cursors. -/
theorem pairwise_fst_getD_inj (ri : List (Nat × Nat))
    (hmono : List.Pairwise (fun a b : Nat × Nat => a.1 < b.1) ri)
    (i j : Nat) (hi : i < ri.length) (hj : j < ri.length)
    (heq : (ri.getD i (0, 0)).1 = (ri.getD j (0, 0)).1) : i = j := by
  have hp := List.pairwise_iff_get.mp hmono
  have hgi : ri.getD i (0, 0) = ri.get ⟨i, hi⟩ := by
    rw [List.getD_eq_getElem?_getD, List.getElem?_eq_getElem hi]
    rfl
  have hgj : ri.getD j (0, 0) = ri.get ⟨j, hj⟩ := by
    rw [List.getD_eq_getElem?_getD, List.getElem?_eq_getElem hj]
    rfl
  rcases lt_trichotomy i j with hij | hij | hij
  · exfalso
    have hr := hp ⟨i, hi⟩ ⟨j, hj⟩ hij
    rw [← hgi, ← hgj, heq] at hr
    omega
  · exact hij
  · exfalso
    have hr := hp ⟨j, hj⟩ ⟨i, hi⟩ hij
    rw [← hgi, ← hgj, heq] at hr
    omega

/-- With a coherent cache and a strictly increasing comp column, the
cached resolver returns the pure per-keyword result. -/
theorem parse_definition_fst (P : Params) (st : MState) (kw : Keyword)
    (hmono : List.Pairwise (fun a b : Nat × Nat => a.1 < b.1)
      st.record_index) (hok : CacheOK P st) :
    (parse_definition P st kw).1 =
      defOutput P st.file.data st.is_index st.v2 st.utf16 st.record_index
        kw := by
  unfold parse_definition defOutput
  cases hcb : checkBounds st.record_index kw.offset with
  | some e => simp
  | none =>
    by_cases hg : st.record_index.length ≤
        bsearch st.record_index kw.offset + 1
    · simp [hg]
    · simp only [hg, if_false]
      by_cases hhit : st.cache_offset =
          (st.record_index.getD (bsearch st.record_index kw.offset)
            (0, 0)).1 ∧ 0 < st.cache.length
      · obtain ⟨j, hj1, hj2, hj3⟩ := hok hhit.2
        have hji : j = bsearch st.record_index kw.offset := by
          apply pairwise_fst_getD_inj st.record_index hmono _ _
            (by omega) (by omega)
          rw [← hj2, hhit.1]
        rw [hji] at hj3
        simp [hhit, hj3]
      · simp only [hhit, if_false]
        cases hde : decodeAt P st.file.data st.record_index
            (bsearch st.record_index kw.offset) with
        | error e => simp [hde]
        | ok buf => simp [hde]

/-- The cached resolver only ever changes the cache slot: the resulting
state keeps the file, the flags and the record index. -/
theorem parse_definition_snd (P : Params) (st : MState) (kw : Keyword) :
    ∃ co ca, (parse_definition P st kw).2 =
      { st with cache_offset := co, cache := ca } := by
  unfold parse_definition
  cases hcb : checkBounds st.record_index kw.offset with
  | some e => exact ⟨_, _, rfl⟩
  | none =>
    by_cases hg : st.record_index.length ≤
        bsearch st.record_index kw.offset + 1
    · simp only [hg, if_true]
      exact ⟨_, _, rfl⟩
    · simp only [hg, if_false]
      by_cases hhit : st.cache_offset =
          (st.record_index.getD (bsearch st.record_index kw.offset)
            (0, 0)).1 ∧ 0 < st.cache.length
      · simp only [hhit, if_true]
        exact ⟨_, _, rfl⟩
      · simp only [hhit, if_false]
        cases hde : decodeAt P st.file.data st.record_index
            (bsearch st.record_index kw.offset) with
        | error e => exact ⟨_, _, rfl⟩
        | ok buf => exact ⟨_, _, rfl⟩

/-- The cache-disabled resolver returns the state unchanged. -/
theorem parse_definition_nocache_snd (P : Params) (st : MState)
    (kw : Keyword) :
    (parse_definition_nocache P st kw).2 = st := by
  unfold parse_definition_nocache
  cases hcb : checkBounds st.record_index kw.offset with
  | some e => rfl
  | none =>
    by_cases hg : st.record_index.length ≤
        bsearch st.record_index kw.offset + 1
    · simp only [hg, if_true]
    · simp only [hg, if_false]
      cases hde : decodeAt P st.file.data st.record_index
          (bsearch st.record_index kw.offset) with
      | error e => rfl
      | ok buf => rfl

/-- The cached resolver preserves cache coherence: a hit leaves the cache
untouched, a miss installs the freshly decoded block together with its
comp cursor. -/
theorem parse_definition_cacheOK (P : Params) (st : MState) (kw : Keyword)
    (hok : CacheOK P st) : CacheOK P (parse_definition P st kw).2 := by
  unfold parse_definition
  cases hcb : checkBounds st.record_index kw.offset with
  | some e => exact hok
  | none =>
    by_cases hg : st.record_index.length ≤
        bsearch st.record_index kw.offset + 1
    · simp only [hg, if_true]
      exact hok
    · simp only [hg, if_false]
      by_cases hhit : st.cache_offset =
          (st.record_index.getD (bsearch st.record_index kw.offset)
            (0, 0)).1 ∧ 0 < st.cache.length
      · simp only [hhit, if_true]
        exact hok
      · simp only [hhit, if_false]
        cases hde : decodeAt P st.file.data st.record_index
            (bsearch st.record_index kw.offset) with
        | error e => exact hok
        | ok buf =>
          intro _
          exact ⟨bsearch st.record_index kw.offset,
            (by omega : bsearch st.record_index kw.offset + 1 <
              st.record_index.length), rfl, hde⟩

/-- Every output of the cache-disabled driver loop is the pure
per-keyword result of the initial state. -/
theorem runAllNoCache_eq_map (P : Params) :
    ∀ (kws : List Keyword) (u : MState),
      runAllNoCache P u kws =
        kws.map (defOutput P u.file.data u.is_index u.v2 u.utf16
          u.record_index) := by
  intro kws
  induction kws with
  | nil =>
    intro u
    rfl
  | cons kw rest ih =>
    intro u
    simp only [runAllNoCache, List.map_cons]
    rw [parse_definition_nocache_fst, parse_definition_nocache_snd, ih u]

/-- Every output of the cached driver loop is the pure per-keyword result
of the initial state, provided the comp column is strictly increasing and
the cache starts coherent. -/
theorem runAll_eq_map (P : Params) :
    ∀ (kws : List Keyword) (st : MState),
      List.Pairwise (fun a b : Nat × Nat => a.1 < b.1) st.record_index →
      CacheOK P st →
      runAll P st kws =
        kws.map (defOutput P st.file.data st.is_index st.v2 st.utf16
          st.record_index) := by
  intro kws
  induction kws with
  | nil =>
    intro st _ _
    rfl
  | cons kw rest ih =>
    intro st hmono hok
    simp only [runAll, List.map_cons]
    obtain ⟨co, ca, hsnd⟩ := parse_definition_snd P st kw
    have hok2 : CacheOK P { st with cache_offset := co, cache := ca } := by
      rw [← hsnd]
      exact parse_definition_cacheOK P st kw hok
    rw [parse_definition_fst P st kw hmono hok, hsnd,
      ih { st with cache_offset := co, cache := ca } hmono hok2]

/-- C9: starting from a parse state with an empty cache slot and a
strictly increasing comp-cursor column, resolving any sequence of
keywords in order through the single-slot block cache produces exactly
the same per-keyword results as the resolver that re-reads and re-decodes
the record block on every call. -/
theorem cache_transparent (P : Params) (st : MState) (kws : List Keyword)
    (hmono : List.Pairwise (fun a b : Nat × Nat => a.1 < b.1)
      st.record_index)
    (hcache : st.cache = []) :
    runAll P st kws = runAllNoCache P st kws := by
  have hok : CacheOK P st := by
    intro hc
    rw [hcache] at hc
    simp at hc
  rw [runAll_eq_map P kws st hmono hok, runAllNoCache_eq_map P kws st]

/-- Concrete parameter bundle for evaluating the resolvers. -/
def paramsW : Params :=
  { zlib := zlibFail, lzo := lzoConst, ripemd := ripemdConst,
    fromUtf8 := fun _ => .ok "", fromUtf16 := fun _ => .ok "" }

/-- Concrete resolver state: one uncompressed record block of 4 payload
bytes behind an 8-byte block header, fresh empty cache. -/
def stateW : MState :=
  { file := { data := [0, 0, 0, 0, 0, 0, 0, 0, 1, 2, 3, 4], cursor := 0 },
    is_index := false, v2 := true, utf16 := false,
    record_index := [(0, 0), (12, 4)], cache_offset := 0, cache := [] }

/-- Two resource keywords sharing the single record block. -/
def kwsW : List Keyword :=
  [{ offset := 0, key := "a", size := 2 },
   { offset := 2, key := "b", size := 0 }]

/-- C9 witness: the cached and cache-disabled runs agree on a concrete
two-keyword sequence sharing one record block. -/
theorem cache_transparent_witness :
    runAll paramsW stateW kwsW = runAllNoCache paramsW stateW kwsW := by
  exact cache_transparent paramsW stateW kwsW
    (by simp [stateW, List.pairwise_cons]) rfl

end Beluga
